import Mathlib

/-!
Verification of the PRC-to-IRPLUS transcoding pipeline (src/PRCtoIRPLUS.py).

The embedding works over `List Char` (Python strings).  Python functions that
can raise (`int(s, 16)` on a non-digit string, the length check in
`split_32bit_hex_to_16bit`) are modelled with `Option` / `Except`.  Regex
scans are modelled by specialised matchers that follow Python `re` semantics
for the concrete patterns of the source (leftmost match, greedy / lazy
backtracking order, ASCII reading of the `\w` and `\s` classes, `findall`
resuming at each match end).
-/

set_option maxRecDepth 100000

namespace PRC

/-- Python strings are modelled as lists of characters. -/
abbrev Str := List Char

/-- Python character class `\s` (and the `str.strip` set), ASCII part:
space (32), tab (9), newline (10), vertical tab (11), form feed (12),
carriage return (13). -/
def isSpace (c : Char) : Bool :=
  c.toNat = 32 || (9 ≤ c.toNat && c.toNat ≤ 13)

/-- Python character class `\w`, ASCII part: digits, letters, underscore (95). -/
def isWordChar (c : Char) : Bool :=
  (48 ≤ c.toNat && c.toNat ≤ 57) || (65 ≤ c.toNat && c.toNat ≤ 90)
    || (97 ≤ c.toNat && c.toNat ≤ 122) || c.toNat = 95

/-- Value of one hexadecimal digit, as accepted by `int(s, 16)`. -/
def hexDigitVal (c : Char) : Option Nat :=
  if 48 ≤ c.toNat ∧ c.toNat ≤ 57 then some (c.toNat - 48)        -- '0'..'9'
  else if 65 ≤ c.toNat ∧ c.toNat ≤ 70 then some (c.toNat - 55)   -- 'A'..'F'
  else if 97 ≤ c.toNat ∧ c.toNat ≤ 102 then some (c.toNat - 87)  -- 'a'..'f'
  else none

/-- The regex character class `[0-9A-Fa-f]`. -/
def isHexChar (c : Char) : Bool :=
  (hexDigitVal c).isSome

/-- An uppercase hexadecimal digit (`0`-`9`, `A`-`F`). -/
def isUpperHexChar (c : Char) : Bool :=
  (48 ≤ c.toNat && c.toNat ≤ 57) || (65 ≤ c.toNat && c.toNat ≤ 70)

/-- Model of `int(s, 16)` on a plain digit string: `none` (an exception in Python) on
the empty string or on any non-hex-digit character.  The source only ever
applies it to regex-matched digit strings, so sign / whitespace / underscore
handling of the Python builtin is never exercised and is not modelled. -/
def hexStrToNat : Str → Option Nat
  | [] => none
  | s => (s.mapM hexDigitVal).map (fun ds => ds.foldl (fun a d => 16 * a + d) 0)

/-- Value of one binary digit, as accepted by `int(s, 2)`. -/
def binDigitVal (c : Char) : Option Nat :=
  if c = '0' then some 0 else if c = '1' then some 1 else none

/-- Model of `int(s, 2)` on a plain digit string (same remarks as `hexStrToNat`). -/
def binStrToNat : Str → Option Nat
  | [] => none
  | s => (s.mapM binDigitVal).map (fun ds => ds.foldl (fun a d => 2 * a + d) 0)

/-- Binary digits of `n`, most significant first, as `bin(n)[2:]` renders
them (`bin(0)[2:] = "0"`).  Fuel-driven so that it reduces in the kernel;
the wrapper supplies enough fuel. -/
def natToBinAux : Nat → Nat → Str
  | 0, _ => []
  | fuel + 1, n =>
    if n < 2 then [if n = 1 then '1' else '0']
    else natToBinAux fuel (n / 2) ++ [if n % 2 = 1 then '1' else '0']

/-- Model of `bin(n)[2:]`. -/
def natToBin (n : Nat) : Str :=
  natToBinAux (n + 1) n

/-- Lowercase hexadecimal digit character for a value below 16. -/
def hexDigitLower (n : Nat) : Char :=
  ("0123456789abcdef".data).getD n '0'

/-- Uppercase hexadecimal digit character for a value below 16. -/
def hexDigitUpper (n : Nat) : Char :=
  ("0123456789ABCDEF".data).getD n '0'

/-- Hex digits of `n`, most significant first, lowercase, as `hex(n)[2:]`
renders them (`hex(0)[2:] = "0"`). -/
def natToHexLowerAux : Nat → Nat → Str
  | 0, _ => []
  | fuel + 1, n =>
    if n < 16 then [hexDigitLower n]
    else natToHexLowerAux fuel (n / 16) ++ [hexDigitLower (n % 16)]

/-- Model of `hex(n)[2:]`. -/
def natToHexLower (n : Nat) : Str :=
  natToHexLowerAux (n + 1) n

/-- Hex digits of `n`, most significant first, uppercase, as the format
spec `X` renders them. -/
def natToHexUpperAux : Nat → Nat → Str
  | 0, _ => []
  | fuel + 1, n =>
    if n < 16 then [hexDigitUpper n]
    else natToHexUpperAux fuel (n / 16) ++ [hexDigitUpper (n % 16)]

/-- Model of `format(n, 'X')`. -/
def natToHexUpper (n : Nat) : Str :=
  natToHexUpperAux (n + 1) n

/-- Python `str.zfill(w)` on a digit string: left-pad with `'0'` to width
`w` (no-op when already at least that wide). -/
def zfill (w : Nat) (s : Str) : Str :=
  List.replicate (w - s.length) '0' ++ s

/-- Model of the format `02X`: uppercase hex, zero-padded to two digits. -/
def pad2U (n : Nat) : Str :=
  zfill 2 (natToHexUpper n)

/-! ## The transform functions of the source -/

/-- Source `zero_pad_hex` (line 25): `f"{int(hex_value, 16):02X}"`. -/
def zero_pad_hex (t : Str) : Option Str :=
  (hexStrToNat t).map pad2U

/-- Source `hex_to_binary` (line 33): `bin(int(hex_value, 16))[2:].zfill(bits)`. -/
def hex_to_binary (h : Str) (bits : Nat) : Option Str :=
  (hexStrToNat h).map (fun n => zfill bits (natToBin n))

/-- Source `binary_not` (line 37): flip `'0'` to `'1'`, anything else to `'0'`. -/
def binary_not (s : Str) : Str :=
  s.map (fun c => if c = '0' then '1' else '0')

/-- Source `binary_to_hex` (line 41): `hex(int(binary_value, 2))[2:].upper().zfill(2)`. -/
def binary_to_hex (s : Str) : Option Str :=
  (binStrToNat s).map (fun n => zfill 2 ((natToHexLower n).map Char.toUpper))

/-- Source `process_24bit_hex` (lines 45-72): split the 6-digit input into
three 2-digit bytes, turn each into an 8-bit binary string, reverse each
string, complement the third reversal, and concatenate the four results
converted back to 2-digit uppercase hex. -/
def process_24bit_hex (s : Str) : Option Str := do
  let bin1 ← hex_to_binary (s.take 2) 8
  let bin2 ← hex_to_binary ((s.drop 2).take 2) 8
  let bin3 ← hex_to_binary ((s.drop 4).take 2) 8
  let rbin1 := bin1.reverse
  let rbin2 := bin2.reverse
  let rbin3 := bin3.reverse
  let rbin4 := binary_not rbin3
  let ahex1 ← binary_to_hex rbin1
  let ahex2 ← binary_to_hex rbin2
  let ahex3 ← binary_to_hex rbin3
  let ahex4 ← binary_to_hex rbin4
  pure (ahex1 ++ ahex2 ++ ahex3 ++ ahex4)

/-- Source `split_32bit_hex_to_16bit` (lines 78-84): length check, then the
first four and last four characters. -/
def split_32bit_hex_to_16bit (s : Str) : Except Str (Str × Str) :=
  if s.length ≠ 8 then .error ("Hex value must be 32 bits (8 characters long).".data)
  else .ok (s.take 4, s.drop 4)

/-- The Code Packer of the spec: `split_32bit_hex_to_16bit` followed by the
`0x` rendering of `main` (source lines 186-188). -/
def packCode (s : Str) : Except Str (Str × Str) :=
  match split_32bit_hex_to_16bit s with
  | .error e => .error e
  | .ok (p1, p2) => .ok ("0x".data ++ p1, "0x".data ++ p2)

/-! ## The regex scans of the source

Each Python pattern is modelled by a specialised matcher.  `re.findall`
tries the pattern at every position from the left, emits the captures of
each match and resumes right after it; on failure it advances one
character.  The scanners below follow the backtracking order of the Python
engine for the concrete patterns: greedy pieces try the longest extent
first, the lazy `(.*?)` tries the shortest first.  Where a greedy piece is
followed by a disjoint character class (`\s+` before a hex digit,
`\s*` before `=` or before `[^\s]+`) only the maximal extent can succeed,
and the matcher commits to it. -/

/-- No-word-character test for the position before a match (`\b` on the
left of a word character; the start of the string is a boundary). -/
def nonWordBefore : Option Char → Bool
  | none => true
  | some c => !isWordChar c

/-- Boundary `\b` on the right of a word character: end of string, or a following
non-word character. -/
def boundaryAfter : Str → Bool
  | [] => true
  | c :: _ => !isWordChar c

/-- Greedy `([0-9A-Fa-f]{1,2})`: try a two-digit capture first and fall
back to one digit when the continuation `k` fails. -/
def tok12 {β : Type} (s : Str) (k : Str → Str → Option β) : Option β :=
  match s with
  | [] => none
  | [c] => if isHexChar c then k [c] [] else none
  | c1 :: c2 :: rest =>
    if isHexChar c1 then
      if isHexChar c2 then
        match k [c1, c2] rest with
        | some r => some r
        | none => k [c1] (c2 :: rest)
      else k [c1] (c2 :: rest)
    else none

/-- Greedy `\s+` immediately before a hex digit: at least one whitespace
character, committed to the maximal run (a shorter run would leave a
whitespace character where the next hex digit is required). -/
def eatSpaces1 : Str → Option Str
  | [] => none
  | c :: rest => if isSpace c then some (rest.dropWhile isSpace) else none

/-- One attempt of the triple pattern
`\b([0-9A-Fa-f]{1,2})\s+([0-9A-Fa-f]{1,2})\s+([0-9A-Fa-f]{1,2})\b`
at the current position; `prev` is the character before that position.
Returns the three captures and the rest of the string after the match. -/
def matchTripleAt (prev : Option Char) (s : Str) : Option ((Str × Str × Str) × Str) :=
  if nonWordBefore prev then
    tok12 s (fun t1 r1 =>
      (eatSpaces1 r1).bind (fun r1b =>
        tok12 r1b (fun t2 r2 =>
          (eatSpaces1 r2).bind (fun r2b =>
            tok12 r2b (fun t3 r3 =>
              if boundaryAfter r3 then some ((t1, t2, t3), r3) else none)))))
  else none

/-- The `re.findall` driver for the triple pattern.  The fuel only bounds the
recursion; `length + 1` is always enough because every step consumes at
least one character. -/
def scanTriplesAux : Nat → Option Char → Str → List (Str × Str × Str)
  | 0, _, _ => []
  | _ + 1, _, [] => []
  | fuel + 1, prev, c :: rest =>
    match matchTripleAt prev (c :: rest) with
    | some (g, rest') => g :: scanTriplesAux fuel g.2.2.getLast? rest'
    | none => scanTriplesAux fuel (some c) rest

/-- All matches of the triple pattern, in order (source line 17). -/
def findTriples (text : Str) : List (Str × Str × Str) :=
  scanTriplesAux (text.length + 1) none text

/-- Source `extract_hex_groups` (lines 14-23): the triple matches, kept
when all three tokens parse to at most `0xFF`.  A token that fails to
parse would raise in Python; the `false` branch is unreachable because
matched tokens are hex digit strings (proved below). -/
def extract_hex_groups (text : Str) : List (Str × Str × Str) :=
  (findTriples text).filter (fun g =>
    [g.1, g.2.1, g.2.2].all (fun t =>
      match hexStrToNat t with
      | some v => v ≤ 255
      | none => false))

/-- Tail `\s*=` after the lazy capture: maximal whitespace run, then `=`. -/
def tailEq (u : Str) : Option Str :=
  match u.dropWhile isSpace with
  | c :: r => if c = '=' then some r else none
  | [] => none

/-- The lazy `(.*?)\s*=` tail of the label pattern: try the empty capture
first, then extend one character at a time (`.` matches anything except a
newline).  Returns the capture and the rest after the `=`. -/
def lazyCap (u : Str) : Option (Str × Str) :=
  match tailEq u with
  | some r => some ([], r)
  | none =>
    match u with
    | [] => none
    | c :: u' =>
      if c = '\n' then none
      else (lazyCap u').map (fun p => (c :: p.1, p.2))

/-- The greedy initial `\s*` of the label pattern: try the maximal run
(`drop i`) first and back off one character at a time. -/
def goW : Nat → Str → Option (Str × Str)
  | 0, rest => lazyCap rest
  | i + 1, rest =>
    match lazyCap (rest.drop (i + 1)) with
    | some r => some r
    | none => goW i rest

/-- One attempt of the label pattern `,\s*(.*?)\s*=` at the current
position. -/
def matchLabelAt (s : Str) : Option (Str × Str) :=
  match s with
  | [] => none
  | c :: rest =>
    if c = ',' then goW (rest.takeWhile isSpace).length rest else none

/-- The `re.findall` driver for the label pattern. -/
def scanLabelsAux : Nat → Str → List Str
  | 0, _ => []
  | _ + 1, [] => []
  | fuel + 1, c :: rest =>
    match matchLabelAt (c :: rest) with
    | some (cap, rest') => cap :: scanLabelsAux fuel rest'
    | none => scanLabelsAux fuel rest

/-- Source `extract_text_between_comma_and_equal` (lines 9-12). -/
def extract_text_between_comma_and_equal (text : Str) : List Str :=
  scanLabelsAux (text.length + 1) text

/-- One attempt of the pattern `\b[0-9A-Fa-f]{6}\b` of `main`
(source line 178). -/
def match6At (prev : Option Char) (s : Str) : Option (Str × Str) :=
  if (s.take 6).length = 6 && (s.take 6).all isHexChar && nonWordBefore prev
      && boundaryAfter (s.drop 6)
  then some (s.take 6, s.drop 6) else none

/-- The `re.findall` driver for the 6-hex-digit pattern. -/
def scan6Aux : Nat → Option Char → Str → List Str
  | 0, _, _ => []
  | _ + 1, _, [] => []
  | fuel + 1, prev, c :: rest =>
    match match6At prev (c :: rest) with
    | some (t, rest') => t :: scan6Aux fuel t.getLast? rest'
    | none => scan6Aux fuel (some c) rest

/-- All matches of `\b[0-9A-Fa-f]{6}\b`, in order. -/
def findall6hex (text : Str) : List Str :=
  scan6Aux (text.length + 1) none text

/-- One attempt of `Key=\s*([^\s]+)` (source lines 92-93) at the current
position: the literal key, maximal whitespace, then a maximal nonempty
run of non-whitespace characters. -/
def matchKeyAt (key : Str) (s : Str) : Option Str :=
  if s.take key.length = key then
    let u := (s.drop key.length).dropWhile isSpace
    let cap := u.takeWhile (fun c => !isSpace c)
    if cap.isEmpty then none else some cap
  else none

/-- The `re.search` driver: first position, scanning left to right, where the
key pattern matches. -/
def searchKeyAux : Nat → Str → Str → Option Str
  | 0, _, _ => none
  | _ + 1, _, [] => none
  | fuel + 1, key, c :: rest =>
    match matchKeyAt key (c :: rest) with
    | some cap => some cap
    | none => searchKeyAux fuel key rest

/-- Model of `re.search(r'Brand=\s*([^\s]+)', text)`, capture of the first match. -/
def searchBrand (text : Str) : Option Str :=
  searchKeyAux (text.length + 1) ("Brand=".data) text

/-- Model of `re.search(r'Model=\s*([^\s]+)', text)`, capture of the first match. -/
def searchModel (text : Str) : Option Str :=
  searchKeyAux (text.length + 1) ("Model=".data) text

/-- Source `extract_brand_and_model` (lines 90-101). -/
def extract_brand_and_model (text : Str) : Str × Str :=
  ((searchBrand text).getD ("Brand".data), (searchModel text).getD ("ItemX".data))

/-! ## The `main` pipeline (source lines 138-210) and the
Document Assembler (lines 107-132) -/

/-- Python `str.strip()` restricted to ASCII whitespace. -/
def pyStrip (s : Str) : Str :=
  ((s.dropWhile isSpace).reverse.dropWhile isSpace).reverse

/-- Python `str.split("\t")`: split at every tab, keeping empty pieces. -/
def splitTabAux : Str → Str → List Str
  | [], acc => [acc.reverse]
  | c :: r, acc =>
    if c = '\t' then acc.reverse :: splitTabAux r [] else splitTabAux r (c :: acc)

/-- Python `line.split("\t")`. -/
def splitTab (s : Str) : List Str :=
  splitTabAux s []

/-- The 24-bit value of one triple as built in `main` (lines 163-166):
zero-pad each token and join. -/
def pad24 (g : Str × Str × Str) : Option Str := do
  let a ← zero_pad_hex g.1
  let b ← zero_pad_hex g.2.1
  let c ← zero_pad_hex g.2.2
  pure (a ++ b ++ c)

/-- Model of `extracted_texts[i] if i < len(extracted_texts) else "N/A"`
(source line 168). -/
def labelAt (texts : List Str) (i : Nat) : Str :=
  if h : i < texts.length then texts.get ⟨i, h⟩ else "N/A".data

/-- The `output_lines` loop of `main` (lines 161-172): one line
`label TAB hex24` per extracted triple, labels paired by index. -/
def outputLines (texts : List Str) (groups : List (Str × Str × Str)) : Option (List Str) :=
  groups.enum.mapM (fun p => (pad24 p.2).map (fun h24 => labelAt texts p.1 ++ '\t' :: h24))

/-- The body of the inner loop of `main` (lines 181-189) for one 24-bit
match `m` found in the line: strip, append the 32-bit result, then append
the two `0x`-prefixed 16-bit halves and a newline. -/
def processMatch (l : Str) (m : Str) : Option Str := do
  let anhex ← process_24bit_hex m
  match split_32bit_hex_to_16bit anhex with
  | .error _ => none
  | .ok (p1, p2) =>
    pure (pyStrip l ++ '\t' :: anhex ++ '\t' :: ("0x".data ++ p1 ++ ' ' :: ("0x".data ++ p2)) ++ ['\n'])

/-- The `processed_lines` loop body of `main` (lines 176-190): find all
6-hex-digit words in the line and fold `processMatch` over them; a line
without matches is kept unchanged. -/
def processLine (line : Str) : Option Str :=
  match findall6hex line with
  | [] => some line
  | ms => ms.foldlM processMatch line

/-- The pipeline of `main` up to and including the `processed_lines` loop. -/
def mainProcessedLines (text : Str) : Option (List Str) := do
  let texts := extract_text_between_comma_and_equal text
  let groups := extract_hex_groups text
  let outLines ← outputLines texts groups
  outLines.mapM processLine

/-- The three opening records of `generate_xml_content` (lines 110-114). -/
def headerLines (brand model : Str) : List Str :=
  [("<irplus>".data),
   ("  <device manufacturer=\"".data) ++ brand ++ ("\" model=\"".data) ++ model
     ++ ("\" columns=\"12\" format=\"WINLIRC_NEC1\" one-pulse=\"600\" one-space=\"1654\" zero-pulse=\"600\" zero-space=\"522\" header-pulse=\"9051\" header-space=\"4433\" gap-space=\"108161\" gap-pulse=\"601\" bits=\"16\" pre-bits=\"16\" rowSplit=\"3\">".data),
   ("    <button label=\"".data) ++ brand ++ '-' :: model
     ++ ("\" labelSize=\"15.0\" span=\"8\" backgroundColor=\"FF000000\"> </button>".data)]

/-- The per-line entry of `generate_xml_content` (lines 117-126): a line
that splits into at least four tab-separated fields yields the pair
(label, code string) rendered into a button record; other lines are
skipped (the source surfaces a UI warning). -/
def entryOfLine (line : Str) : Option (Str × Str) :=
  let parts := splitTab (pyStrip line)
  if 4 ≤ parts.length then some (parts.getD 0 [], parts.getD 3 []) else none

/-- The button record rendered from one accepted line. -/
def buttonLineOf (line : Str) : Option Str :=
  (entryOfLine line).map (fun e =>
    ("    <button label=\"".data) ++ e.1 ++ ("\" labelSize=\"20.0\" span=\"4\">".data)
      ++ e.2 ++ ("</button>".data))

/-- Source `generate_xml_content` (lines 107-132) as its list of records
(the source joins them with newlines on return). -/
def generate_xml_content (processed : List Str) (brand model : Str) : List Str :=
  headerLines brand model ++ processed.filterMap buttonLineOf
    ++ [("  </device>".data), ("</irplus>".data)]

/-- The (label, code string) pairs the Document Assembler renders, for a
given input text: the observable output sequence of the pipeline. -/
def mainEntries (text : Str) : Option (List (Str × Str)) :=
  (mainProcessedLines text).map (fun ls => ls.filterMap entryOfLine)

/-- The full document `main` assembles for a given input text. -/
def mainXml (text : Str) : Option (List Str) :=
  (mainProcessedLines text).map (fun ls =>
    generate_xml_content ls (extract_brand_and_model text).1 (extract_brand_and_model text).2)

/-- The code pair `main` derives from one triple (lines 163-166 and
181-188, for the triple's own 24-bit value): zero-pad and join the tokens,
run the Byte Transform, split, render with `0x`. -/
def codePairOfGroup (g : Str × Str × Str) : Option (Str × Str) := do
  let h24 ← pad24 g
  let anhex ← process_24bit_hex h24
  match split_32bit_hex_to_16bit anhex with
  | .error _ => none
  | .ok (p1, p2) => pure ("0x".data ++ p1, "0x".data ++ p2)

/-- The code string `f"0x{part1} 0x{part2}"` derived from one triple. -/
def codeStrOfGroup (g : Str × Str × Str) : Option Str :=
  (codePairOfGroup g).map (fun p => p.1 ++ ' ' :: p.2)

/-! ## Specification-side predicates -/

/-- Shape of a token captured by `([0-9A-Fa-f]{1,2})`: one or two hex
digit characters. -/
def goodTok (t : Str) : Prop :=
  (t.length = 1 ∨ t.length = 2) ∧ ∀ c ∈ t, isHexChar c = true

/-- Shape of a triple of captured tokens. -/
def goodGroup (g : Str × Str × Str) : Prop :=
  goodTok g.1 ∧ goodTok g.2.1 ∧ goodTok g.2.2

/-- A label that is transparent to the downstream re-scan of `main`:
nonempty, not starting with whitespace, without tabs, and without any
word-bounded 6-hex-digit token. -/
def goodLabel (l : Str) : Prop :=
  l ≠ [] ∧ isSpace (l.headD ' ') = false ∧ '\t' ∉ l ∧ findall6hex l = []

/-- The character just before position `i` of `s`, with `prev` the
character before position 0 (`none` at the very start of the scan). -/
def prevAt (prev : Option Char) (s : Str) (i : Nat) : Option Char :=
  if i = 0 then prev else s.get? (i - 1)

instance (t : Str) : Decidable (goodTok t) := by
  unfold goodTok; infer_instance

instance (g : Str × Str × Str) : Decidable (goodGroup g) := by
  unfold goodGroup; infer_instance

instance (l : Str) : Decidable (goodLabel l) := by
  unfold goodLabel; infer_instance

/-! ## Specification-side bit arithmetic -/

/-- Mathematical 8-bit reversal: bit `i` of the input becomes bit `7 - i`
of the output. -/
def bitRev8 (b : Nat) : Nat :=
  (List.range 8).foldl (fun acc i => acc + b / 2 ^ i % 2 % 2 * 2 ^ (7 - i)) 0

/-- Mathematical 8-bit complement. -/
def compl8 (b : Nat) : Nat :=
  255 - b

/-- The numeric effect of the string-level bit reversal used by
`process_24bit_hex` (source lines 55-58): render a byte as its 8-bit binary
string, reverse the string, read it back with `int(s, 2)`. -/
def bit_reverse (b : Nat) : Option Nat :=
  binStrToNat ((zfill 8 (natToBin b)).reverse)

/-- The 32-bit output of the Byte Transform on bytes `(v1, v2, v3)`. -/
def anhexOf (v1 v2 v3 : Nat) : Str :=
  pad2U (bitRev8 v1) ++ pad2U (bitRev8 v2) ++ pad2U (bitRev8 v3)
    ++ pad2U (compl8 (bitRev8 v3))

/-- The rendered `0x`-pair string for bytes `(v1, v2, v3)`. -/
def codeStrOf3 (v1 v2 v3 : Nat) : Str :=
  ("0x".data ++ (pad2U (bitRev8 v1) ++ pad2U (bitRev8 v2)))
    ++ ' ' :: ("0x".data ++ (pad2U (bitRev8 v3) ++ pad2U (compl8 (bitRev8 v3))))

/-! ## Per-byte facts, settled by evaluation over all 256 bytes -/

/-- The forward leg of `process_24bit_hex` for one byte value: what
`binary_to_hex` produces from the reversed 8-bit string of `v`. -/
theorem revByteHex_eq :
    ∀ v < 256, binary_to_hex ((zfill 8 (natToBin v)).reverse)
      = some (pad2U (bitRev8 v)) := by decide

/-- The complement leg of `process_24bit_hex` for one byte value. -/
theorem notRevByteHex_eq :
    ∀ v < 256, binary_to_hex (binary_not ((zfill 8 (natToBin v)).reverse))
      = some (pad2U (compl8 (bitRev8 v))) := by decide

/-- Parsing a two-digit uppercase rendering returns the byte value. -/
theorem hexStrToNat_pad2U :
    ∀ v < 256, hexStrToNat (pad2U v) = some v := by decide

/-- The 8-bit reversal stays in byte range. -/
theorem bitRev8_lt :
    ∀ v < 256, bitRev8 v < 256 := by decide

/-- A two-digit uppercase rendering has exactly two characters, all of them
uppercase hex digits. -/
theorem pad2U_shape :
    ∀ v < 256, (pad2U v).length = 2 ∧ (pad2U v).all isUpperHexChar = true := by
  decide

/-! ## Parsing lemmas for captured tokens -/

/-- A hex digit value is below 16. -/
theorem hexDigitVal_lt_16 (c : Char) (d : Nat) (h : hexDigitVal c = some d) : d < 16 := by
  unfold hexDigitVal at h
  split_ifs at h <;> simp_all <;> omega

/-- A hex character has a digit value. -/
theorem isHexChar_exists (c : Char) (h : isHexChar c = true) :
    ∃ d, hexDigitVal c = some d ∧ d < 16 := by
  unfold isHexChar at h
  cases hd : hexDigitVal c with
  | none => rw [hd] at h; simp at h
  | some d => exact ⟨d, rfl, hexDigitVal_lt_16 c d hd⟩

/-- Parsing a one-digit hex string. -/
theorem hexStrToNat_one (a : Char) (da : Nat) (ha : hexDigitVal a = some da) :
    hexStrToNat [a] = some da := by
  show (([a]).mapM hexDigitVal).map (fun ds => ds.foldl (fun x d => 16 * x + d) 0)
      = some da
  rw [List.mapM_cons, List.mapM_nil]
  simp [ha]

/-- Parsing a two-digit hex string. -/
theorem hexStrToNat_two (a b : Char) (da db : Nat)
    (ha : hexDigitVal a = some da) (hb : hexDigitVal b = some db) :
    hexStrToNat [a, b] = some (16 * da + db) := by
  show (([a, b]).mapM hexDigitVal).map (fun ds => ds.foldl (fun x d => 16 * x + d) 0)
      = some (16 * da + db)
  rw [List.mapM_cons, List.mapM_cons, List.mapM_nil]
  simp [ha, hb]

/-- A captured token parses to a byte value. -/
theorem goodTok_val (t : Str) (h : goodTok t) : ∃ v, hexStrToNat t = some v ∧ v < 256 := by
  obtain ⟨hlen, hhex⟩ := h
  rcases hlen with h1 | h2
  · obtain ⟨a, rfl⟩ := List.length_eq_one.mp h1
    obtain ⟨da, hda, hlt⟩ := isHexChar_exists a (hhex a (by simp))
    exact ⟨da, hexStrToNat_one a da hda, by omega⟩
  · obtain ⟨a, b, rfl⟩ := List.length_eq_two.mp h2
    obtain ⟨da, hda, hlta⟩ := isHexChar_exists a (hhex a (by simp))
    obtain ⟨db, hdb, hltb⟩ := isHexChar_exists b (hhex b (by simp))
    exact ⟨16 * da + db, hexStrToNat_two a b da db hda hdb, by omega⟩

/-- Evaluation of `zero_pad_hex` on a parsed token. -/
theorem zero_pad_hex_eq (t : Str) (v : Nat) (h : hexStrToNat t = some v) :
    zero_pad_hex t = some (pad2U v) := by
  simp [zero_pad_hex, h]

/-- Evaluation of `pad24` on a good triple: the three byte values and the joined
6-character string. -/
theorem pad24_eq (g : Str × Str × Str) (hg : goodGroup g) :
    ∃ v1 v2 v3, hexStrToNat g.1 = some v1 ∧ hexStrToNat g.2.1 = some v2
      ∧ hexStrToNat g.2.2 = some v3 ∧ v1 < 256 ∧ v2 < 256 ∧ v3 < 256
      ∧ pad24 g = some (pad2U v1 ++ pad2U v2 ++ pad2U v3) := by
  obtain ⟨v1, h1, l1⟩ := goodTok_val _ hg.1
  obtain ⟨v2, h2, l2⟩ := goodTok_val _ hg.2.1
  obtain ⟨v3, h3, l3⟩ := goodTok_val _ hg.2.2
  refine ⟨v1, v2, v3, h1, h2, h3, l1, l2, l3, ?_⟩
  simp [pad24, zero_pad_hex, h1, h2, h3]

/-! ## Slicing a concatenation of two-character blocks -/

/-- First slice of three two-character blocks. -/
theorem take2_3app (p1 p2 p3 : Str) (h1 : p1.length = 2) :
    (p1 ++ p2 ++ p3).take 2 = p1 := by
  rw [List.append_assoc]
  exact List.take_left' h1

/-- Second slice of three two-character blocks. -/
theorem drop2_take2_3app (p1 p2 p3 : Str) (h1 : p1.length = 2) (h2 : p2.length = 2) :
    ((p1 ++ p2 ++ p3).drop 2).take 2 = p2 := by
  rw [List.append_assoc, List.drop_left' h1]
  exact List.take_left' h2

/-- Third slice of three two-character blocks. -/
theorem drop4_take2_3app (p1 p2 p3 : Str) (h1 : p1.length = 2) (h2 : p2.length = 2)
    (h3 : p3.length = 2) :
    ((p1 ++ p2 ++ p3).drop 4).take 2 = p3 := by
  have h12 : (p1 ++ p2).length = 4 := by rw [List.length_append, h1, h2]
  rw [List.drop_left' h12]
  have := List.take_length p3
  rwa [h3] at this

/-- What `process_24bit_hex` returns once the three 2-character slices of
its input parse to bytes `v1 v2 v3`. -/
theorem process_24bit_eq (s : Str) (v1 v2 v3 : Nat)
    (h1 : hexStrToNat (s.take 2) = some v1) (l1 : v1 < 256)
    (h2 : hexStrToNat ((s.drop 2).take 2) = some v2) (l2 : v2 < 256)
    (h3 : hexStrToNat ((s.drop 4).take 2) = some v3) (l3 : v3 < 256) :
    process_24bit_hex s
      = some (pad2U (bitRev8 v1) ++ pad2U (bitRev8 v2) ++ pad2U (bitRev8 v3)
          ++ pad2U (compl8 (bitRev8 v3))) := by
  have r1 := revByteHex_eq v1 l1
  have r2 := revByteHex_eq v2 l2
  have r3 := revByteHex_eq v3 l3
  have r4 := notRevByteHex_eq v3 l3
  simp [process_24bit_hex, hex_to_binary, h1, h2, h3, r1, r2, r3, r4]

/-- Evaluation of `process_24bit_hex` on the join of three two-digit renderings (shared
by several results below). -/
theorem process_pad2U (b1 b2 b3 : Nat) (h1 : b1 < 256) (h2 : b2 < 256) (h3 : b3 < 256) :
    process_24bit_hex (pad2U b1 ++ pad2U b2 ++ pad2U b3)
      = some (pad2U (bitRev8 b1) ++ pad2U (bitRev8 b2) ++ pad2U (bitRev8 b3)
          ++ pad2U (compl8 (bitRev8 b3))) := by
  have p1 := (pad2U_shape b1 h1).1
  have p2 := (pad2U_shape b2 h2).1
  have p3 := (pad2U_shape b3 h3).1
  refine process_24bit_eq _ b1 b2 b3 ?_ h1 ?_ h2 ?_ h3
  · rw [take2_3app _ _ _ p1]; exact hexStrToNat_pad2U b1 h1
  · rw [drop2_take2_3app _ _ _ p1 p2]; exact hexStrToNat_pad2U b2 h2
  · rw [drop4_take2_3app _ _ _ p1 p2 p3]; exact hexStrToNat_pad2U b3 h3

/-! ## C1 -/

/-- C1: on the 6-hex-digit rendering of bytes `(b1, b2, b3)`, the Byte
Transform returns the 8-hex-digit concatenation of the bit reversals
`r1 r2 r3` of the three bytes followed by the complement of `r3`. -/
theorem C1_byte_transform (b1 b2 b3 : Nat) (h1 : b1 < 256) (h2 : b2 < 256) (h3 : b3 < 256) :
    process_24bit_hex (pad2U b1 ++ pad2U b2 ++ pad2U b3)
      = some (pad2U (bitRev8 b1) ++ pad2U (bitRev8 b2) ++ pad2U (bitRev8 b3)
          ++ pad2U (compl8 (bitRev8 b3))) :=
  process_pad2U b1 b2 b3 h1 h2 h3

/-- Witness for C1 at the all-ones triple (and, rendered as literals, the
`transform((0xFF,0xFF,0xFF)) = (0xFF,0xFF,0xFF,0x00)` example). -/
theorem C1_byte_transform_witness :
    process_24bit_hex ("FFFFFF".data) = some ("FFFFFF00".data) := by
  have h := C1_byte_transform 255 255 255 (by decide) (by decide) (by decide)
  have e1 : pad2U 255 ++ pad2U 255 ++ pad2U 255 = ("FFFFFF".data) := by decide
  have e2 : pad2U (bitRev8 255) ++ pad2U (bitRev8 255) ++ pad2U (bitRev8 255)
      ++ pad2U (compl8 (bitRev8 255)) = ("FFFFFF00".data) := by decide
  rw [e1, e2] at h
  exact h

/-! ## C8 -/

/-- C8: the string-level 8-bit reversal used by the Byte Transform is
self-inverse on every byte. -/
theorem C8_bit_reverse_self_inverse (b : Nat) (h : b < 256) :
    (bit_reverse b).bind bit_reverse = some b := by
  have key : ∀ x < 256, (bit_reverse x).bind bit_reverse = some x := by decide
  exact key b h

/-- Witness for C8 at `0xAB`. -/
theorem C8_bit_reverse_witness : (bit_reverse 171).bind bit_reverse = some 171 :=
  C8_bit_reverse_self_inverse 171 (by decide)

/-! ## C3 -/

/-- C3: on an 8-hex-digit string the Code Packer returns the first and
last four digits unchanged, each with a `0x` prefix; on any string whose
length is not 8 it fails with the invalid-length error. -/
theorem C3_code_packer (s : Str) :
    (s.length = 8 → (∀ c ∈ s, isHexChar c = true) →
      packCode s = .ok ("0x".data ++ s.take 4, "0x".data ++ s.drop 4))
    ∧ (s.length ≠ 8 →
      packCode s = .error ("Hex value must be 32 bits (8 characters long).".data)) := by
  constructor
  · intro h8 _
    simp [packCode, split_32bit_hex_to_16bit, h8]
  · intro hn
    simp [packCode, split_32bit_hex_to_16bit, hn]

/-- Witness for C3: the `pack("20DE50AF")` example and a wrong-length
input. -/
theorem C3_code_packer_witness :
    packCode ("20DE50AF".data)
      = .ok ("0x".data ++ ("20DE50AF".data).take 4, "0x".data ++ ("20DE50AF".data).drop 4)
    ∧ packCode ("123".data)
      = .error ("Hex value must be 32 bits (8 characters long).".data) :=
  ⟨(C3_code_packer ("20DE50AF".data)).1 (by decide) (by decide),
   (C3_code_packer ("123".data)).2 (by decide)⟩

/-- The 8-bit complement stays in byte range. -/
theorem compl8_lt (v : Nat) : compl8 v < 256 := by
  unfold compl8; omega

/-! ## C4 -/

/-- C4: on any 6-hex-digit input the Byte Transform succeeds with an
output of exactly 8 hex characters, so the invalid-length branch of the
Code Packer is unreachable in the pipeline. -/
theorem C4_always_8_digits (s : Str) (h6 : s.length = 6)
    (hhex : ∀ c ∈ s, isHexChar c = true) :
    ∃ out, process_24bit_hex s = some out ∧ out.length = 8
      ∧ split_32bit_hex_to_16bit out = .ok (out.take 4, out.drop 4) := by
  have t1 : goodTok (s.take 2) :=
    ⟨Or.inr (by simp [List.length_take, h6]),
     fun c hc => hhex c (List.take_subset _ _ hc)⟩
  have t2 : goodTok ((s.drop 2).take 2) :=
    ⟨Or.inr (by simp [List.length_take, List.length_drop, h6]),
     fun c hc => hhex c (List.drop_subset _ _ (List.take_subset _ _ hc))⟩
  have t3 : goodTok ((s.drop 4).take 2) :=
    ⟨Or.inr (by simp [List.length_take, List.length_drop, h6]),
     fun c hc => hhex c (List.drop_subset _ _ (List.take_subset _ _ hc))⟩
  obtain ⟨v1, h1, l1⟩ := goodTok_val _ t1
  obtain ⟨v2, h2, l2⟩ := goodTok_val _ t2
  obtain ⟨v3, h3, l3⟩ := goodTok_val _ t3
  have hp := process_24bit_eq s v1 v2 v3 h1 l1 h2 l2 h3 l3
  have e1 := (pad2U_shape (bitRev8 v1) (bitRev8_lt v1 l1)).1
  have e2 := (pad2U_shape (bitRev8 v2) (bitRev8_lt v2 l2)).1
  have e3 := (pad2U_shape (bitRev8 v3) (bitRev8_lt v3 l3)).1
  have e4 := (pad2U_shape (compl8 (bitRev8 v3)) (compl8_lt _)).1
  have hlen : (pad2U (bitRev8 v1) ++ pad2U (bitRev8 v2) ++ pad2U (bitRev8 v3)
      ++ pad2U (compl8 (bitRev8 v3))).length = 8 := by
    simp [List.length_append, e1, e2, e3, e4]
  refine ⟨_, hp, hlen, ?_⟩
  unfold split_32bit_hex_to_16bit
  rw [hlen]
  simp

/-- Witness for C4 on a mixed-case input. -/
theorem C4_always_8_digits_witness :
    ∃ out, process_24bit_hex ("1a2B3c".data) = some out ∧ out.length = 8
      ∧ split_32bit_hex_to_16bit out = .ok (out.take 4, out.drop 4) :=
  C4_always_8_digits ("1a2B3c".data) (by decide) (by decide)

/-! ## C10 -/

/-- C10: the code pair derived from any matched triple (its tokens being
one or two hex digits of either case) is a pair of strings `0x` + exactly
four uppercase hex digits. -/
theorem C10_code_shape (g : Str × Str × Str) (hg : goodGroup g) :
    ∃ ch cl, codePairOfGroup g = some (ch, cl)
      ∧ ch.take 2 = ("0x".data) ∧ (ch.drop 2).length = 4
      ∧ (ch.drop 2).all isUpperHexChar = true
      ∧ cl.take 2 = ("0x".data) ∧ (cl.drop 2).length = 4
      ∧ (cl.drop 2).all isUpperHexChar = true := by
  obtain ⟨v1, v2, v3, h1, h2, h3, l1, l2, l3, hp24⟩ := pad24_eq g hg
  have hproc := process_pad2U v1 v2 v3 l1 l2 l3
  have e1 := (pad2U_shape (bitRev8 v1) (bitRev8_lt v1 l1)).1
  have e2 := (pad2U_shape (bitRev8 v2) (bitRev8_lt v2 l2)).1
  have e3 := (pad2U_shape (bitRev8 v3) (bitRev8_lt v3 l3)).1
  have e4 := (pad2U_shape (compl8 (bitRev8 v3)) (compl8_lt _)).1
  have u1 := (pad2U_shape (bitRev8 v1) (bitRev8_lt v1 l1)).2
  have u2 := (pad2U_shape (bitRev8 v2) (bitRev8_lt v2 l2)).2
  have u3 := (pad2U_shape (bitRev8 v3) (bitRev8_lt v3 l3)).2
  have u4 := (pad2U_shape (compl8 (bitRev8 v3)) (compl8_lt _)).2
  have hAB : (pad2U (bitRev8 v1) ++ pad2U (bitRev8 v2)).length = 4 := by
    simp [List.length_append, e1, e2]
  have hlen : (pad2U (bitRev8 v1) ++ pad2U (bitRev8 v2) ++ pad2U (bitRev8 v3)
      ++ pad2U (compl8 (bitRev8 v3))).length = 8 := by
    simp [List.length_append, e1, e2, e3, e4]
  have htake : (pad2U (bitRev8 v1) ++ pad2U (bitRev8 v2) ++ pad2U (bitRev8 v3)
      ++ pad2U (compl8 (bitRev8 v3))).take 4
      = pad2U (bitRev8 v1) ++ pad2U (bitRev8 v2) := by
    rw [List.append_assoc, List.append_assoc,
      ← List.append_assoc (pad2U (bitRev8 v1))]
    exact List.take_left' hAB
  have hdrop : (pad2U (bitRev8 v1) ++ pad2U (bitRev8 v2) ++ pad2U (bitRev8 v3)
      ++ pad2U (compl8 (bitRev8 v3))).drop 4
      = pad2U (bitRev8 v3) ++ pad2U (compl8 (bitRev8 v3)) := by
    rw [List.append_assoc, List.append_assoc,
      ← List.append_assoc (pad2U (bitRev8 v1))]
    exact List.drop_left' hAB
  have hsplit : split_32bit_hex_to_16bit (pad2U (bitRev8 v1) ++ pad2U (bitRev8 v2)
      ++ pad2U (bitRev8 v3) ++ pad2U (compl8 (bitRev8 v3)))
      = .ok (pad2U (bitRev8 v1) ++ pad2U (bitRev8 v2),
             pad2U (bitRev8 v3) ++ pad2U (compl8 (bitRev8 v3))) := by
    unfold split_32bit_hex_to_16bit
    rw [hlen, if_neg (by simp), htake, hdrop]
  have h0x : ("0x".data : Str).length = 2 := rfl
  simp only [List.append_assoc] at hproc hsplit
  refine ⟨("0x".data) ++ (pad2U (bitRev8 v1) ++ pad2U (bitRev8 v2)),
    ("0x".data) ++ (pad2U (bitRev8 v3) ++ pad2U (compl8 (bitRev8 v3))),
    ?_, ?_, ?_, ?_, ?_, ?_, ?_⟩
  · simp [codePairOfGroup, hp24, hproc, hsplit]
  · exact List.take_left' h0x
  · rw [List.drop_left' h0x]
    simp [List.length_append, e1, e2]
  · rw [List.drop_left' h0x]
    simp [List.all_append, u1, u2]
  · exact List.take_left' h0x
  · rw [List.drop_left' h0x]
    simp [List.length_append, e3, e4]
  · rw [List.drop_left' h0x]
    simp [List.all_append, u3, u4]

/-- Witness for C10 on a lowercase triple. -/
theorem C10_code_shape_witness :
    ∃ ch cl, codePairOfGroup (("ab".data), ("cd".data), ("ef".data)) = some (ch, cl)
      ∧ ch.take 2 = ("0x".data) ∧ (ch.drop 2).length = 4
      ∧ (ch.drop 2).all isUpperHexChar = true
      ∧ cl.take 2 = ("0x".data) ∧ (cl.drop 2).length = 4
      ∧ (cl.drop 2).all isUpperHexChar = true :=
  C10_code_shape (("ab".data), ("cd".data), ("ef".data))
    ⟨⟨Or.inr (by decide), by decide⟩, ⟨Or.inr (by decide), by decide⟩,
     ⟨Or.inr (by decide), by decide⟩⟩

/-! ## Generic list machinery -/

/-- A `dropWhile` never lengthens a list. -/
theorem dropWhile_length_le {α : Type} (p : α → Bool) :
    ∀ l : List α, (l.dropWhile p).length ≤ l.length := by
  intro l
  induction l with
  | nil => simp
  | cons a l ih =>
    cases h : p a with
    | true => rw [List.dropWhile_cons_of_pos h]; exact Nat.le_trans ih (Nat.le_succ _)
    | false => rw [List.dropWhile_cons_of_neg (by simp [h])]

/-- Index-wise description of a successful `Option`-valued `mapM`. -/
theorem mapM_opt_sound {α β : Type} (f : α → Option β) :
    ∀ (l : List α) (r : List β), l.mapM f = some r →
      r.length = l.length
      ∧ ∀ i a, l.get? i = some a → ∃ b, f a = some b ∧ r.get? i = some b := by
  intro l
  induction l with
  | nil =>
    intro r h
    rw [List.mapM_nil] at h
    obtain rfl : ([] : List β) = r := by simpa using h
    exact ⟨rfl, by intro i a ha; simp at ha⟩
  | cons a l ih =>
    intro r h
    rw [List.mapM_cons] at h
    cases hfa : f a with
    | none => rw [hfa] at h; simp at h
    | some b =>
      rw [hfa] at h
      cases hml : l.mapM f with
      | none => rw [hml] at h; simp at h
      | some bs =>
        rw [hml] at h
        obtain rfl : b :: bs = r := by simpa using h
        obtain ⟨hlen, hidx⟩ := ih bs hml
        refine ⟨by simp [hlen], ?_⟩
        intro i x hx
        cases i with
        | zero =>
          obtain rfl : a = x := by simpa using hx
          exact ⟨b, hfa, rfl⟩
        | succ j =>
          obtain ⟨y, hy1, hy2⟩ := hidx j x (by simpa using hx)
          exact ⟨y, hy1, by simpa using hy2⟩

/-- An `Option`-valued `mapM` succeeds when every element succeeds. -/
theorem mapM_opt_isSome {α β : Type} (f : α → Option β) :
    ∀ l : List α, (∀ x ∈ l, (f x).isSome = true) → ∃ r, l.mapM f = some r := by
  intro l
  induction l with
  | nil => exact fun _ => ⟨[], rfl⟩
  | cons a l ih =>
    intro h
    obtain ⟨b, hb⟩ := Option.isSome_iff_exists.mp (h a (by simp))
    obtain ⟨bs, hbs⟩ := ih (fun x hx => h x (by simp [hx]))
    exact ⟨b :: bs, by rw [List.mapM_cons, hb, hbs]; rfl⟩

/-- Index-wise description of `filterMap` when every element succeeds. -/
theorem filterMap_opt_sound {α β : Type} (f : α → Option β) :
    ∀ l : List α, (∀ x ∈ l, (f x).isSome = true) →
      (l.filterMap f).length = l.length
      ∧ ∀ i a, l.get? i = some a → ∃ b, f a = some b ∧ (l.filterMap f).get? i = some b := by
  intro l
  induction l with
  | nil => exact fun _ => ⟨rfl, by intro i a ha; simp at ha⟩
  | cons a l ih =>
    intro h
    obtain ⟨b, hb⟩ := Option.isSome_iff_exists.mp (h a (by simp))
    obtain ⟨hlen, hidx⟩ := ih (fun x hx => h x (by simp [hx]))
    rw [List.filterMap_cons_some hb]
    refine ⟨by simp [hlen], ?_⟩
    intro i x hx
    cases i with
    | zero =>
      obtain rfl : a = x := by simpa using hx
      exact ⟨b, hb, rfl⟩
    | succ j =>
      obtain ⟨y, hy1, hy2⟩ := hidx j x (by simpa using hx)
      exact ⟨y, hy1, by simpa using hy2⟩

/-! ## The output_lines loop (C5) -/

/-- Index-wise description of the `output_lines` loop of `main`: one line
per triple, the i-th line pairing the i-th triple with `labelAt texts i`. -/
theorem outputLines_sound (texts : List Str) (groups : List (Str × Str × Str))
    (hg : ∀ g ∈ groups, goodGroup g) :
    ∃ lines, outputLines texts groups = some lines ∧ lines.length = groups.length
      ∧ ∀ i g, groups.get? i = some g →
          ∃ h24, pad24 g = some h24
            ∧ lines.get? i = some (labelAt texts i ++ '\t' :: h24) := by
  have hsome : ∀ p ∈ groups.enum,
      ((pad24 p.2).map (fun h24 => labelAt texts p.1 ++ '\t' :: h24)).isSome = true := by
    intro p hp
    obtain ⟨i, hi⟩ := List.get?_of_mem hp
    rw [List.get?_enum] at hi
    cases hgi : groups.get? i with
    | none => rw [hgi] at hi; simp at hi
    | some g =>
      rw [hgi] at hi
      obtain rfl : (i, g) = p := by simpa using hi
      obtain ⟨v1, v2, v3, _, _, _, _, _, _, hp24⟩ :=
        pad24_eq g (hg g (List.get?_mem hgi))
      simp [hp24]
  obtain ⟨lines, hl⟩ := mapM_opt_isSome _ _ hsome
  obtain ⟨hlen, hidx⟩ := mapM_opt_sound _ _ _ hl
  refine ⟨lines, hl, by rw [hlen, List.enum_length], ?_⟩
  intro i g hgi
  have he : groups.enum.get? i = some (i, g) := by
    rw [List.get?_enum, hgi]; rfl
  obtain ⟨b, hb1, hb2⟩ := hidx i (i, g) he
  cases hp : pad24 g with
  | none => rw [hp] at hb1; simp at hb1
  | some h24 =>
    rw [hp] at hb1
    obtain rfl : labelAt texts i ++ '\t' :: h24 = b := by simpa using hb1
    exact ⟨h24, rfl, hb2⟩

/-! ## C5 -/

/-- C5: the i-th triple is paired with the i-th label; past the end of the
label list the sentinel `"N/A"` is used; no entry is dropped (one output
line per triple). -/
theorem C5_label_pairing (texts : List Str) (groups : List (Str × Str × Str))
    (hg : ∀ g ∈ groups, goodGroup g) :
    (∀ i, texts.length ≤ i → labelAt texts i = ("N/A".data))
    ∧ ∃ lines, outputLines texts groups = some lines ∧ lines.length = groups.length
      ∧ ∀ i g, groups.get? i = some g →
          ∃ h24, pad24 g = some h24
            ∧ lines.get? i = some (labelAt texts i ++ '\t' :: h24) := by
  refine ⟨?_, outputLines_sound texts groups hg⟩
  intro i hi
  unfold labelAt
  rw [dif_neg (by omega)]

/-- Witness for C5: the spec example with two triples and one label
`"Power"`. -/
theorem C5_label_pairing_witness :
    (∀ i, (([("Power".data)] : List Str)).length ≤ i
        → labelAt [("Power".data)] i = ("N/A".data))
    ∧ ∃ lines, outputLines [("Power".data)]
          [(("01".data), ("02".data), ("03".data)), (("0A".data), ("0B".data), ("0C".data))]
        = some lines
      ∧ lines.length = 2
      ∧ ∀ i g, ([(("01".data), ("02".data), ("03".data)),
            (("0A".data), ("0B".data), ("0C".data))]).get? i = some g →
          ∃ h24, pad24 g = some h24
            ∧ lines.get? i = some (labelAt [("Power".data)] i ++ '\t' :: h24) :=
  C5_label_pairing [("Power".data)]
    [(("01".data), ("02".data), ("03".data)), (("0A".data), ("0B".data), ("0C".data))]
    (by decide)

/-! ## C9 -/

/-- C9: the brand string defaults to `"Brand"` and the model string to
`"ItemX"` exactly when the respective search finds no match; a found
capture is used as is. -/
theorem C9_brand_model_defaults (text : Str) :
    (searchBrand text = none → (extract_brand_and_model text).1 = ("Brand".data))
    ∧ (∀ v, searchBrand text = some v → (extract_brand_and_model text).1 = v)
    ∧ (searchModel text = none → (extract_brand_and_model text).2 = ("ItemX".data))
    ∧ (∀ v, searchModel text = some v → (extract_brand_and_model text).2 = v) := by
  refine ⟨?_, ?_, ?_, ?_⟩
  · intro h; simp [extract_brand_and_model, h]
  · intro v h; simp [extract_brand_and_model, h]
  · intro h; simp [extract_brand_and_model, h]
  · intro v h; simp [extract_brand_and_model, h]

/-- Witness for C9: a text with neither identifier and one with both. -/
theorem C9_brand_model_witness :
    (extract_brand_and_model ("no identifiers here".data)).1 = ("Brand".data)
    ∧ (extract_brand_and_model ("no identifiers here".data)).2 = ("ItemX".data)
    ∧ (extract_brand_and_model ("Brand=Sony Model=X1".data)).1 = ("Sony".data)
    ∧ (extract_brand_and_model ("Brand=Sony Model=X1".data)).2 = ("X1".data) :=
  ⟨(C9_brand_model_defaults _).1 (by decide),
   (C9_brand_model_defaults _).2.2.1 (by decide),
   (C9_brand_model_defaults _).2.1 _ (by decide),
   (C9_brand_model_defaults _).2.2.2 _ (by decide)⟩

/-! ## Soundness of the triple matcher (C7) -/

/-- A good token is nonempty. -/
theorem goodTok_pos (t : Str) (h : goodTok t) : 1 ≤ t.length := by
  rcases h.1 with h1 | h2 <;> omega

/-- A successful `eatSpaces1` consumes at least one character. -/
theorem eatSpaces1_some (u u' : Str) (h : eatSpaces1 u = some u') :
    u'.length < u.length := by
  cases u with
  | nil => simp [eatSpaces1] at h
  | cons c r =>
    simp only [eatSpaces1] at h
    split_ifs at h
    · rw [Option.some_inj] at h
      subst h
      have := dropWhile_length_le isSpace r
      simp only [List.length_cons]
      omega

/-- A successful greedy 1-2 digit token: the continuation was called on a
well-formed capture and the matching remainder. -/
theorem tok12_some {β : Type} (s : Str) (k : Str → Str → Option β) (r : β)
    (h : tok12 s k = some r) :
    ∃ t u, k t u = some r ∧ goodTok t ∧ t ++ u = s := by
  cases s with
  | nil => simp [tok12] at h
  | cons c1 rest1 =>
    cases rest1 with
    | nil =>
      simp only [tok12] at h
      split_ifs at h with hc
      · exact ⟨[c1], [], h,
          ⟨Or.inl rfl, by intro x hx; simp at hx; subst hx; exact hc⟩, rfl⟩
    | cons c2 rest =>
      simp only [tok12] at h
      split_ifs at h with h1 h2
      · cases hk : k [c1, c2] rest with
        | some r' =>
          rw [hk] at h
          simp only [Option.some_inj] at h
          subst h
          refine ⟨[c1, c2], rest, hk, ⟨Or.inr rfl, ?_⟩, rfl⟩
          intro x hx
          simp at hx
          rcases hx with rfl | rfl
          exacts [h1, h2]
        | none =>
          rw [hk] at h
          exact ⟨[c1], c2 :: rest, h,
            ⟨Or.inl rfl, by intro x hx; simp at hx; subst hx; exact h1⟩, rfl⟩
      · exact ⟨[c1], c2 :: rest, h,
          ⟨Or.inl rfl, by intro x hx; simp at hx; subst hx; exact h1⟩, rfl⟩

/-- A successful triple match yields well-formed captures and consumes at
least one character. -/
theorem matchTripleAt_sound (prev : Option Char) (s : Str) (g : Str × Str × Str)
    (rest : Str) (h : matchTripleAt prev s = some (g, rest)) :
    goodGroup g ∧ rest.length < s.length := by
  unfold matchTripleAt at h
  split_ifs at h
  · obtain ⟨t1, u1, hk1, g1, he1⟩ := tok12_some _ _ _ h
    cases hs1 : eatSpaces1 u1 with
    | none => rw [hs1] at hk1; simp at hk1
    | some r1b =>
      rw [hs1] at hk1
      simp only [Option.some_bind] at hk1
      obtain ⟨t2, u2, hk2, g2, he2⟩ := tok12_some _ _ _ hk1
      cases hs2 : eatSpaces1 u2 with
      | none => rw [hs2] at hk2; simp at hk2
      | some r2b =>
        rw [hs2] at hk2
        simp only [Option.some_bind] at hk2
        obtain ⟨t3, u3, hk3, g3, he3⟩ := tok12_some _ _ _ hk2
        split_ifs at hk3
        · rw [Option.some_inj] at hk3
          have hg : g = (t1, t2, t3) := congrArg Prod.fst hk3.symm
          have hrest : rest = u3 := congrArg Prod.snd hk3.symm
          have l1 : u1.length < s.length := by
            have h' := congrArg List.length he1
            rw [List.length_append] at h'
            have := goodTok_pos t1 g1
            omega
          have l2 : u2.length < r1b.length := by
            have h' := congrArg List.length he2
            rw [List.length_append] at h'
            have := goodTok_pos t2 g2
            omega
          have l3 : u3.length < r2b.length := by
            have h' := congrArg List.length he3
            rw [List.length_append] at h'
            have := goodTok_pos t3 g3
            omega
          have m1 := eatSpaces1_some u1 r1b hs1
          have m2 := eatSpaces1_some u2 r2b hs2
          refine ⟨by rw [hg]; exact ⟨g1, g2, g3⟩, ?_⟩
          rw [hrest]
          omega

/-- Every group emitted by the triple scan is well formed. -/
theorem scanTriplesAux_good :
    ∀ (fuel : Nat) (prev : Option Char) (s : Str) (g : Str × Str × Str),
      g ∈ scanTriplesAux fuel prev s → goodGroup g := by
  intro fuel
  induction fuel with
  | zero => intro prev s g h; simp [scanTriplesAux] at h
  | succ n ih =>
    intro prev s g h
    cases s with
    | nil => simp [scanTriplesAux] at h
    | cons c rest =>
      unfold scanTriplesAux at h
      cases hm : matchTripleAt prev (c :: rest) with
      | some pr =>
        obtain ⟨g0, rest'⟩ := pr
        rw [hm] at h
        simp only [List.mem_cons] at h
        rcases h with rfl | h
        · exact (matchTripleAt_sound _ _ _ _ hm).1
        · exact ih _ _ _ h
      | none =>
        rw [hm] at h
        exact ih _ _ _ h

/-- Every group found by the raw triple scan is well formed. -/
theorem findTriples_good (text : Str) (g : Str × Str × Str)
    (h : g ∈ findTriples text) : goodGroup g :=
  scanTriplesAux_good _ _ _ _ h

/-! ## C7 -/

/-- C7: the byte-range filter of `extract_hex_groups` removes nothing:
every matched token already parses to at most `0xFF`. -/
theorem C7_filter_removes_nothing (text : Str) :
    extract_hex_groups text = findTriples text := by
  unfold extract_hex_groups
  apply List.filter_eq_self.mpr
  intro g hg
  have hgood := findTriples_good text g hg
  obtain ⟨v1, hv1, l1⟩ := goodTok_val _ hgood.1
  obtain ⟨v2, hv2, l2⟩ := goodTok_val _ hgood.2.1
  obtain ⟨v3, hv3, l3⟩ := goodTok_val _ hgood.2.2
  simp [hv1, hv2, hv3]
  omega

/-! ## Empty scans (C6) -/

/-- If the label pattern matches at no position, the label scan is empty. -/
theorem scanLabelsAux_empty (text : Str)
    (h : ∀ i < text.length, matchLabelAt (text.drop i) = none) :
    ∀ fuel i, scanLabelsAux fuel (text.drop i) = [] := by
  intro fuel
  induction fuel with
  | zero => intro i; rfl
  | succ n ih =>
    intro i
    cases hd : text.drop i with
    | nil => rfl
    | cons c rest =>
      have hi : i < text.length := by
        by_contra hle
        push_neg at hle
        rw [List.drop_eq_nil_of_le hle] at hd
        exact List.noConfusion hd
      have hm := h i hi
      rw [hd] at hm
      have hrest : rest = text.drop (i + 1) := by
        have htl := List.tail_drop text i
        rw [hd] at htl
        simpa using htl
      simp only [scanLabelsAux, hm]
      rw [hrest]
      exact ih (i + 1)

/-- If the triple pattern matches at no position, the triple scan is
empty. -/
theorem scanTriplesAux_empty (text : Str)
    (h : ∀ i < text.length, matchTripleAt (prevAt none text i) (text.drop i) = none) :
    ∀ fuel i, scanTriplesAux fuel (prevAt none text i) (text.drop i) = [] := by
  intro fuel
  induction fuel with
  | zero => intro i; rfl
  | succ n ih =>
    intro i
    cases hd : text.drop i with
    | nil => rfl
    | cons c rest =>
      have hi : i < text.length := by
        by_contra hle
        push_neg at hle
        rw [List.drop_eq_nil_of_le hle] at hd
        exact List.noConfusion hd
      have hm := h i hi
      rw [hd] at hm
      have hrest : rest = text.drop (i + 1) := by
        have htl := List.tail_drop text i
        rw [hd] at htl
        simpa using htl
      have hprev : some c = prevAt none text (i + 1) := by
        unfold prevAt
        rw [if_neg (by omega)]
        have h0 := List.get?_drop text i 0
        rw [hd] at h0
        simp only [Nat.add_sub_cancel]
        simpa using h0
      simp only [scanTriplesAux, hm]
      rw [hrest, hprev]
      exact ih (i + 1)

/-! ## C6 -/

/-- C6: on a text where neither the label pattern nor the triple pattern
matches anywhere, both extractions are empty and the assembled document is
the header-only record list. -/
theorem C6_empty_extraction (text : Str)
    (hl : ∀ i < text.length, matchLabelAt (text.drop i) = none)
    (ht : ∀ i < text.length, matchTripleAt (prevAt none text i) (text.drop i) = none) :
    extract_text_between_comma_and_equal text = []
    ∧ extract_hex_groups text = []
    ∧ mainXml text = some (headerLines (extract_brand_and_model text).1
        (extract_brand_and_model text).2 ++ [("  </device>".data), ("</irplus>".data)]) := by
  have h1 : extract_text_between_comma_and_equal text = [] := by
    have := scanLabelsAux_empty text hl (text.length + 1) 0
    rw [List.drop_zero] at this
    exact this
  have h2 : findTriples text = [] := by
    have := scanTriplesAux_empty text ht (text.length + 1) 0
    rw [List.drop_zero] at this
    exact this
  have h3 : extract_hex_groups text = [] := by
    unfold extract_hex_groups
    rw [h2]
    rfl
  refine ⟨h1, h3, ?_⟩
  simp only [mainXml, mainProcessedLines, h3, outputLines, generate_xml_content]
  rfl

/-- Witness for C6 on a text with no comma and no byte triple. -/
theorem C6_empty_extraction_witness :
    extract_text_between_comma_and_equal ("hello world!".data) = []
    ∧ extract_hex_groups ("hello world!".data) = []
    ∧ mainXml ("hello world!".data)
      = some (headerLines (extract_brand_and_model ("hello world!".data)).1
          (extract_brand_and_model ("hello world!".data)).2
          ++ [("  </device>".data), ("</irplus>".data)]) := by
  refine C6_empty_extraction ("hello world!".data) ?_ ?_
  · have hb : ∀ i < ("hello world!".data).length,
        (matchLabelAt (("hello world!".data).drop i)).isNone = true := by decide
    intro i hi
    exact Option.isNone_iff_eq_none.mp (hb i hi)
  · have hb : ∀ i < ("hello world!".data).length,
        (matchTripleAt (prevAt none ("hello world!".data) i)
          (("hello world!".data).drop i)).isNone = true := by decide
    intro i hi
    exact Option.isNone_iff_eq_none.mp (hb i hi)

/-! ## Character-class facts for uppercase hex strings -/

/-- An `if _ then some _ else none` expression is `none` exactly when the
condition fails. -/
theorem if_opt_none {α : Type} (c : Prop) [Decidable c] (x : α) :
    (if c then some x else none) = none ↔ ¬ c := by
  split_ifs with h <;> simp [h]

/-- An uppercase hex digit is a hex digit, is not whitespace, is not a tab,
and is a word character. -/
theorem upperHex_props (c : Char) (h : isUpperHexChar c = true) :
    isHexChar c = true ∧ isSpace c = false ∧ c ≠ '\t' ∧ isWordChar c = true := by
  unfold isUpperHexChar at h
  simp only [Bool.or_eq_true, Bool.and_eq_true, decide_eq_true_eq] at h
  refine ⟨?_, ?_, ?_, ?_⟩
  · unfold isHexChar hexDigitVal
    rcases h with ⟨h1, h2⟩ | ⟨h1, h2⟩
    · rw [if_pos ⟨h1, h2⟩]; rfl
    · rw [if_neg (by omega), if_pos ⟨h1, h2⟩]; rfl
  · cases hs : isSpace c with
    | false => rfl
    | true =>
      exfalso
      unfold isSpace at hs
      simp only [Bool.or_eq_true, Bool.and_eq_true, decide_eq_true_eq] at hs
      rcases h with ⟨h1, h2⟩ | ⟨h1, h2⟩ <;> rcases hs with hs | ⟨hs1, hs2⟩ <;> omega
  · intro he
    rw [he] at h
    exact absurd h (by decide)
  · unfold isWordChar
    simp only [Bool.or_eq_true, Bool.and_eq_true, decide_eq_true_eq]
    rcases h with ⟨h1, h2⟩ | ⟨h1, h2⟩
    · exact Or.inl (Or.inl (Or.inl ⟨h1, h2⟩))
    · exact Or.inl (Or.inl (Or.inr ⟨h1, by omega⟩))

/-- A string of uppercase hex digits contains no tab. -/
theorem all_upper_no_tab (s : Str) (h : s.all isUpperHexChar = true) : '\t' ∉ s :=
  fun hm => (upperHex_props _ (List.all_eq_true.mp h _ hm)).2.2.1 rfl

/-- A string of uppercase hex digits is a string of hex digits. -/
theorem all_upper_all_hex (s : Str) (h : s.all isUpperHexChar = true) :
    s.all isHexChar = true :=
  List.all_eq_true.mpr (fun x hx => (upperHex_props x (List.all_eq_true.mp h x hx)).1)

/-- A nonempty string of uppercase hex digits reversed starts with a
non-whitespace character. -/
theorem rev_head_upper (s : Str) (hne : s ≠ []) (h : s.all isUpperHexChar = true) :
    ∃ d r, s.reverse = d :: r ∧ isSpace d = false := by
  cases hr : s.reverse with
  | nil => exact absurd (List.reverse_eq_nil_iff.mp hr) hne
  | cons d r =>
    have hd : d ∈ s := List.mem_reverse.mp (by rw [hr]; exact List.mem_cons_self d r)
    exact ⟨d, r, rfl, (upperHex_props _ (List.all_eq_true.mp h _ hd)).2.1⟩

/-! ## The 6-hex-digit scan on a label-prefixed line (C2) -/

/-- The 6-digit pattern never matches the empty string. -/
theorem match6At_nil (prev : Option Char) : match6At prev [] = none := by
  simp [match6At]

/-- The 6-digit pattern never matches at a non-hex character. -/
theorem match6At_head_not_hex (prev : Option Char) (c : Char) (r : Str)
    (hc : isHexChar c = false) : match6At prev (c :: r) = none := by
  simp [match6At, hc]

/-- The 6-digit pattern matches a bare 6-hex-digit string after a non-word
position. -/
theorem match6At_exact (prev : Option Char) (h6 : Str) (hp : nonWordBefore prev = true)
    (hlen : h6.length = 6) (hhex : h6.all isHexChar = true) :
    match6At prev h6 = some (h6, []) := by
  have ht : h6.take 6 = h6 := by rw [← hlen, List.take_length]
  have hd : h6.drop 6 = [] := by rw [← hlen, List.drop_length]
  simp [match6At, ht, hd, hlen, hhex, hp, boundaryAfter]

/-- Failure of the 6-digit pattern is preserved under appending a
tab-prefixed suffix: a run of six hex digits cannot reach across the tab,
and the tab is as good a right boundary as the end of the string. -/
theorem match6At_append_tab (prev : Option Char) (l h : Str)
    (hm : match6At prev l = none) : match6At prev (l ++ '\t' :: h) = none := by
  unfold match6At at hm ⊢
  rw [if_opt_none] at hm ⊢
  intro hc'
  apply hm
  simp only [Bool.and_eq_true, decide_eq_true_eq] at hc' ⊢
  obtain ⟨⟨⟨hlen', hhex'⟩, hprev'⟩, hbnd'⟩ := hc'
  by_cases h6 : 6 ≤ l.length
  · rw [List.take_append_of_le_length h6] at hlen' hhex'
    refine ⟨⟨⟨hlen', hhex'⟩, hprev'⟩, ?_⟩
    rw [List.drop_append_of_le_length h6] at hbnd'
    cases hdrop : l.drop 6 with
    | nil => simp [boundaryAfter]
    | cons d r =>
      rw [hdrop] at hbnd'
      simpa [boundaryAfter] using hbnd'
  · exfalso
    push_neg at h6
    have hmem : '\t' ∈ (l ++ '\t' :: h).take 6 := by
      rw [List.take_append_eq_append_take]
      refine List.mem_append.mpr (Or.inr ?_)
      cases hk : 6 - l.length with
      | zero => omega
      | succ k => simp
    have := List.all_eq_true.mp hhex' _ hmem
    exact absurd this (by decide)

/-- The previous-character function steps through a cons cell. -/
theorem prevAt_cons (prev : Option Char) (c : Char) (rest : Str) (j : Nat) :
    prevAt prev (c :: rest) (j + 1) = prevAt (some c) rest j := by
  unfold prevAt
  cases j with
  | zero => simp
  | succ k => simp

/-- An empty 6-digit scan means the pattern fails at every position. -/
theorem scan6Aux_nil_forall :
    ∀ (fuel : Nat) (l : Str) (prev : Option Char), l.length < fuel →
      scan6Aux fuel prev l = [] →
      ∀ i, match6At (prevAt prev l i) (l.drop i) = none := by
  intro fuel
  induction fuel with
  | zero => intro l prev h; omega
  | succ n ih =>
    intro l prev hlt hscan i
    cases l with
    | nil => rw [List.drop_nil]; exact match6At_nil _
    | cons c rest =>
      have hm : match6At prev (c :: rest) = none := by
        cases hm0 : match6At prev (c :: rest) with
        | none => rfl
        | some pr =>
          obtain ⟨t, rest'⟩ := pr
          rw [scan6Aux, hm0] at hscan
          exact List.noConfusion hscan
      cases i with
      | zero => simpa using hm
      | succ j =>
        have hrec : scan6Aux n (some c) rest = [] := by
          rw [scan6Aux, hm] at hscan
          exact hscan
        have := ih rest (some c) (by simp at hlt ⊢; omega) hrec j
        rw [prevAt_cons]
        simpa using this

/-- Scanning `label TAB h6` where the label admits no match finds exactly
the 6-digit block `h6`. -/
theorem scan6Aux_concat (h6 : Str) (hlen : h6.length = 6) (hhex : h6.all isHexChar = true) :
    ∀ (l : Str) (fuel : Nat) (prev : Option Char),
      l.length + 8 ≤ fuel →
      (∀ i, match6At (prevAt prev l i) (l.drop i) = none) →
      scan6Aux fuel prev (l ++ '\t' :: h6) = [h6] := by
  intro l
  induction l with
  | nil =>
    intro fuel prev hf _
    cases fuel with
    | zero => omega
    | succ f =>
      cases f with
      | zero => omega
      | succ f2 =>
        have h1 : match6At prev ('\t' :: h6) = none :=
          match6At_head_not_hex _ _ _ (by decide)
        cases h6 with
        | nil => exact absurd hlen (by decide)
        | cons a r =>
          have hnil : ∀ (fl : Nat) (p : Option Char), scan6Aux fl p [] = [] := by
            intro fl p
            cases fl <;> rfl
          have h2 : match6At (some '\t') (a :: r) = some (a :: r, []) :=
            match6At_exact _ _ (by decide) hlen hhex
          rw [List.nil_append, scan6Aux, h1, scan6Aux, h2]
          simp [hnil]
  | cons c l' ih =>
    intro fuel prev hf hpos
    cases fuel with
    | zero => omega
    | succ f =>
      have hm0 : match6At prev ((c :: l') ++ '\t' :: h6) = none :=
        match6At_append_tab prev (c :: l') h6 (by simpa using hpos 0)
      rw [List.cons_append, scan6Aux, show match6At prev (c :: (l' ++ '\t' :: h6))
          = none from hm0]
      apply ih f (some c) (by simp at hf ⊢; omega)
      intro i
      have hp := hpos (i + 1)
      rw [prevAt_cons] at hp
      simpa using hp

/-! ## Stripping and splitting the assembled line (C2) -/

/-- Python `str.strip` is the identity on a string that starts and ends with
non-whitespace. -/
theorem pyStrip_no_strip (c : Char) (t : Str) (d : Char) (r : Str)
    (hrev : (c :: t).reverse = d :: r) (hc : isSpace c = false) (hd : isSpace d = false) :
    pyStrip (c :: t) = c :: t := by
  unfold pyStrip
  rw [List.dropWhile_cons_of_neg (by simp [hc]), hrev,
    List.dropWhile_cons_of_neg (by simp [hd]), ← hrev, List.reverse_reverse]

/-- Python `str.strip` removes exactly the final newline from a line that starts
and otherwise ends with non-whitespace. -/
theorem pyStrip_newline (c : Char) (t : Str) (d : Char) (r : Str)
    (hrev : (c :: t).reverse = d :: r) (hc : isSpace c = false) (hd : isSpace d = false) :
    pyStrip ((c :: t) ++ ['\n']) = c :: t := by
  unfold pyStrip
  rw [show ((c :: t) ++ ['\n'] : Str) = c :: (t ++ ['\n']) from rfl,
    List.dropWhile_cons_of_neg (by simp [hc]),
    show (c :: (t ++ ['\n'])).reverse = '\n' :: (c :: t).reverse from by simp,
    List.dropWhile_cons_of_pos (by decide), hrev,
    List.dropWhile_cons_of_neg (by simp [hd]), ← hrev, List.reverse_reverse]

/-- Python `split("\t")` of a tab-free string. -/
theorem splitTabAux_no_tab :
    ∀ (a acc : Str), '\t' ∉ a → splitTabAux a acc = [acc.reverse ++ a] := by
  intro a
  induction a with
  | nil => intro acc _; simp [splitTabAux]
  | cons c a' ih =>
    intro acc h
    have hc : ¬ (c = '\t') := fun he => h (by rw [he]; exact List.mem_cons_self _ _)
    simp only [splitTabAux, if_neg hc]
    rw [ih (c :: acc) (fun hm => h (List.mem_cons_of_mem _ hm))]
    simp

/-- Python `split("\t")` peels one tab-free field before a tab. -/
theorem splitTabAux_tab :
    ∀ (a acc r : Str), '\t' ∉ a →
      splitTabAux (a ++ '\t' :: r) acc = (acc.reverse ++ a) :: splitTabAux r [] := by
  intro a
  induction a with
  | nil => intro acc r _; simp [splitTabAux]
  | cons c a' ih =>
    intro acc r h
    have hc : ¬ (c = '\t') := fun he => h (by rw [he]; exact List.mem_cons_self _ _)
    simp only [List.cons_append, splitTabAux, if_neg hc, List.append_eq]
    rw [ih (c :: acc) r (fun hm => h (List.mem_cons_of_mem _ hm))]
    simp

/-- Python `split("\t")` of a tab-free string as a single field. -/
theorem splitTab_no_tab (a : Str) (h : '\t' ∉ a) : splitTab a = [a] := by
  unfold splitTab
  rw [splitTabAux_no_tab a [] h]
  rfl

/-- Python `split("\t")` peels fields at tabs. -/
theorem splitTab_cons (a r : Str) (h : '\t' ∉ a) :
    splitTab (a ++ '\t' :: r) = a :: splitTab r := by
  unfold splitTab
  rw [splitTabAux_tab a [] r h]
  rfl

/-! ## The per-line processing of `main` on a well-formed line (C2) -/

/-- Reverse of an append keeps the head of the reversed right part. -/
theorem rev_head_chain (y z : Str) (d : Char) (r : Str) (h : z.reverse = d :: r) :
    ∃ r2, (y ++ z).reverse = d :: r2 :=
  ⟨r ++ y.reverse, by rw [List.reverse_append, h]; rfl⟩

/-- Reverse of a cons keeps the head of the reversed tail. -/
theorem rev_head_cons (x : Char) (z : Str) (d : Char) (r : Str) (h : z.reverse = d :: r) :
    ∃ r2, (x :: z).reverse = d :: r2 :=
  ⟨r ++ [x], by rw [List.reverse_cons, h]; rfl⟩

/-- Membership in an append fails when it fails on both parts. -/
theorem not_mem_append {α : Type} {x : α} {a b : List α} (ha : x ∉ a) (hb : x ∉ b) :
    x ∉ a ++ b := by
  intro h
  rcases List.mem_append.mp h with h | h
  exacts [ha h, hb h]

/-- Splitting the Byte Transform output into its 16-bit halves. -/
theorem split_anhex (v1 v2 v3 : Nat) (l1 : v1 < 256) (l2 : v2 < 256) (l3 : v3 < 256) :
    split_32bit_hex_to_16bit (anhexOf v1 v2 v3)
      = .ok (pad2U (bitRev8 v1) ++ pad2U (bitRev8 v2),
             pad2U (bitRev8 v3) ++ pad2U (compl8 (bitRev8 v3))) := by
  have e1 := (pad2U_shape (bitRev8 v1) (bitRev8_lt v1 l1)).1
  have e2 := (pad2U_shape (bitRev8 v2) (bitRev8_lt v2 l2)).1
  have e3 := (pad2U_shape (bitRev8 v3) (bitRev8_lt v3 l3)).1
  have e4 := (pad2U_shape (compl8 (bitRev8 v3)) (compl8_lt _)).1
  have hAB : (pad2U (bitRev8 v1) ++ pad2U (bitRev8 v2)).length = 4 := by
    simp [List.length_append, e1, e2]
  have hlen : (anhexOf v1 v2 v3).length = 8 := by
    simp [anhexOf, List.length_append, e1, e2, e3, e4]
  have htake : (anhexOf v1 v2 v3).take 4 = pad2U (bitRev8 v1) ++ pad2U (bitRev8 v2) := by
    unfold anhexOf
    rw [List.append_assoc, List.append_assoc,
      ← List.append_assoc (pad2U (bitRev8 v1))]
    exact List.take_left' hAB
  have hdrop : (anhexOf v1 v2 v3).drop 4
      = pad2U (bitRev8 v3) ++ pad2U (compl8 (bitRev8 v3)) := by
    unfold anhexOf
    rw [List.append_assoc, List.append_assoc,
      ← List.append_assoc (pad2U (bitRev8 v1))]
    exact List.drop_left' hAB
  unfold split_32bit_hex_to_16bit
  rw [hlen, if_neg (by simp), htake, hdrop]

/-- The Byte Transform output consists of uppercase hex digits. -/
theorem anhexOf_upper (v1 v2 v3 : Nat) (h1 : v1 < 256) (h2 : v2 < 256) (h3 : v3 < 256) :
    (anhexOf v1 v2 v3).all isUpperHexChar = true := by
  simp [anhexOf, List.all_append,
    (pad2U_shape (bitRev8 v1) (bitRev8_lt v1 h1)).2,
    (pad2U_shape (bitRev8 v2) (bitRev8_lt v2 h2)).2,
    (pad2U_shape (bitRev8 v3) (bitRev8_lt v3 h3)).2,
    (pad2U_shape (compl8 (bitRev8 v3)) (compl8_lt _)).2]

/-- The rendered code pair string contains no tab. -/
theorem codeStrOf3_no_tab (v1 v2 v3 : Nat) (h1 : v1 < 256) (h2 : v2 < 256) (h3 : v3 < 256) :
    '\t' ∉ codeStrOf3 v1 v2 v3 := by
  have hAB : (pad2U (bitRev8 v1) ++ pad2U (bitRev8 v2)).all isUpperHexChar = true := by
    simp [List.all_append,
      (pad2U_shape (bitRev8 v1) (bitRev8_lt v1 h1)).2,
      (pad2U_shape (bitRev8 v2) (bitRev8_lt v2 h2)).2]
  have hCD : (pad2U (bitRev8 v3) ++ pad2U (compl8 (bitRev8 v3))).all isUpperHexChar = true := by
    simp [List.all_append,
      (pad2U_shape (bitRev8 v3) (bitRev8_lt v3 h3)).2,
      (pad2U_shape (compl8 (bitRev8 v3)) (compl8_lt _)).2]
  unfold codeStrOf3
  refine not_mem_append (not_mem_append (by decide) (all_upper_no_tab _ hAB)) ?_
  intro hm
  rcases List.mem_cons.mp hm with hm | hm
  · exact absurd hm (by decide)
  · exact not_mem_append (by decide) (all_upper_no_tab _ hCD) hm

/-- The rendered code pair string ends in a non-whitespace character. -/
theorem codeStrOf3_rev_head (v1 v2 v3 : Nat) (_ : v1 < 256) (_ : v2 < 256) (h3 : v3 < 256) :
    ∃ d r, (codeStrOf3 v1 v2 v3).reverse = d :: r ∧ isSpace d = false := by
  have hCD : (pad2U (bitRev8 v3) ++ pad2U (compl8 (bitRev8 v3))).all isUpperHexChar = true := by
    simp [List.all_append,
      (pad2U_shape (bitRev8 v3) (bitRev8_lt v3 h3)).2,
      (pad2U_shape (compl8 (bitRev8 v3)) (compl8_lt _)).2]
  have hCDne : (pad2U (bitRev8 v3) ++ pad2U (compl8 (bitRev8 v3))) ≠ [] := by
    intro he
    have h4 := congrArg List.length he
    simp [List.length_append, (pad2U_shape (bitRev8 v3) (bitRev8_lt v3 h3)).1,
      (pad2U_shape (compl8 (bitRev8 v3)) (compl8_lt _)).1] at h4
  obtain ⟨d, r, hr, hd⟩ := rev_head_upper _ hCDne hCD
  obtain ⟨rz, hrz⟩ := rev_head_chain ("0x".data)
    (pad2U (bitRev8 v3) ++ pad2U (compl8 (bitRev8 v3))) d r hr
  obtain ⟨ry, hry⟩ := rev_head_cons ' '
    ("0x".data ++ (pad2U (bitRev8 v3) ++ pad2U (compl8 (bitRev8 v3)))) d rz hrz
  obtain ⟨rr, hrr⟩ := rev_head_chain
    ("0x".data ++ (pad2U (bitRev8 v1) ++ pad2U (bitRev8 v2)))
    (' ' :: ("0x".data ++ (pad2U (bitRev8 v3) ++ pad2U (compl8 (bitRev8 v3))))) d ry hry
  exact ⟨d, rr, hrr, hd⟩

/-- One step of the inner loop of `main` on the 24-bit value of a triple. -/
theorem processMatch_eq (l : Str) (v1 v2 v3 : Nat)
    (h1 : v1 < 256) (h2 : v2 < 256) (h3 : v3 < 256) :
    processMatch l (pad2U v1 ++ pad2U v2 ++ pad2U v3)
      = some (pyStrip l ++ '\t' :: anhexOf v1 v2 v3
          ++ '\t' :: codeStrOf3 v1 v2 v3 ++ ['\n']) := by
  have hproc := process_pad2U v1 v2 v3 h1 h2 h3
  have hsplit := split_anhex v1 v2 v3 h1 h2 h3
  simp only [List.append_assoc, anhexOf] at hproc hsplit
  simp [processMatch, hproc, hsplit, anhexOf, codeStrOf3]

/-- The code string of a good triple, in closed byte form. -/
theorem codeStrOfGroup_eq (g : Str × Str × Str) (hg : goodGroup g) :
    ∃ v1 v2 v3, hexStrToNat g.1 = some v1 ∧ hexStrToNat g.2.1 = some v2
      ∧ hexStrToNat g.2.2 = some v3 ∧ v1 < 256 ∧ v2 < 256 ∧ v3 < 256
      ∧ codeStrOfGroup g = some (codeStrOf3 v1 v2 v3) := by
  obtain ⟨v1, v2, v3, e1, e2, e3, l1, l2, l3, hp⟩ := pad24_eq g hg
  have hproc := process_pad2U v1 v2 v3 l1 l2 l3
  have hsplit := split_anhex v1 v2 v3 l1 l2 l3
  simp only [List.append_assoc, anhexOf] at hproc hsplit
  refine ⟨v1, v2, v3, e1, e2, e3, l1, l2, l3, ?_⟩
  simp [codeStrOfGroup, codePairOfGroup, hp, hproc, hsplit, codeStrOf3]

/-- The Document Assembler on a line of four tab-free fields followed by
a newline: strip removes the newline and the split yields the four
fields, of which the first and fourth are emitted. -/
theorem entryOfLine_four (f1x f2x f3x f4x : Str) (hne : f1x ≠ [])
    (h1 : isSpace (f1x.headD ' ') = false)
    (hd : ∃ d r, f4x.reverse = d :: r ∧ isSpace d = false)
    (t1 : '\t' ∉ f1x) (t2 : '\t' ∉ f2x) (t3 : '\t' ∉ f3x) (t4 : '\t' ∉ f4x) :
    entryOfLine (f1x ++ ('\t' :: (f2x ++ ('\t' :: (f3x ++ ('\t' :: (f4x ++ ['\n'])))))))
      = some (f1x, f4x) := by
  obtain ⟨c, T0, rfl⟩ := List.exists_cons_of_ne_nil hne
  obtain ⟨d, r, hrev4, hdns⟩ := hd
  have hc : isSpace c = false := by simpa using h1
  have hE : (c :: T0) ++ ('\t' :: (f2x ++ ('\t' :: (f3x ++ ('\t' :: (f4x ++ ['\n']))))))
      = (c :: (T0 ++ ('\t' :: (f2x ++ ('\t' :: (f3x ++ ('\t' :: f4x))))))) ++ ['\n'] := by
    simp [List.append_assoc]
  obtain ⟨x1, hx1⟩ := rev_head_cons '\t' f4x d r hrev4
  obtain ⟨x2, hx2⟩ := rev_head_chain f3x ('\t' :: f4x) d x1 hx1
  obtain ⟨x3, hx3⟩ := rev_head_cons '\t' (f3x ++ ('\t' :: f4x)) d x2 hx2
  obtain ⟨x4, hx4⟩ := rev_head_chain f2x ('\t' :: (f3x ++ ('\t' :: f4x))) d x3 hx3
  obtain ⟨x5, hx5⟩ := rev_head_cons '\t' (f2x ++ ('\t' :: (f3x ++ ('\t' :: f4x)))) d x4 hx4
  obtain ⟨x6, hx6⟩ := rev_head_chain T0
    ('\t' :: (f2x ++ ('\t' :: (f3x ++ ('\t' :: f4x))))) d x5 hx5
  obtain ⟨x7, hx7⟩ := rev_head_cons c
    (T0 ++ ('\t' :: (f2x ++ ('\t' :: (f3x ++ ('\t' :: f4x)))))) d x6 hx6
  unfold entryOfLine
  rw [hE, pyStrip_newline c _ d x7 hx7 hc hdns,
    show (c :: (T0 ++ ('\t' :: (f2x ++ ('\t' :: (f3x ++ ('\t' :: f4x)))))))
      = (c :: T0) ++ ('\t' :: (f2x ++ ('\t' :: (f3x ++ ('\t' :: f4x))))) from rfl,
    splitTab_cons _ _ t1, splitTab_cons _ _ t2, splitTab_cons _ _ t3,
    splitTab_no_tab _ t4]
  rfl

/-- Processing one assembled line `label TAB hex24` with a transparent
label: the line survives processing, and the Document Assembler reads off
exactly the label and the code string of the triple. -/
theorem processLine_entry (label : Str) (g : Str × Str × Str)
    (hlab : goodLabel label) (hg : goodGroup g) :
    ∃ h24 pl cs, pad24 g = some h24
      ∧ processLine (label ++ '\t' :: h24) = some pl
      ∧ codeStrOfGroup g = some cs
      ∧ entryOfLine pl = some (label, cs) := by
  obtain ⟨v1, v2, v3, e1, e2, e3, l1, l2, l3, hp24⟩ := pad24_eq g hg
  obtain ⟨w1, w2, w3, f1, f2, f3, _, _, _, hcs⟩ := codeStrOfGroup_eq g hg
  rw [e1] at f1
  rw [e2] at f2
  rw [e3] at f3
  rw [(Option.some_inj.mp f1).symm, (Option.some_inj.mp f2).symm,
    (Option.some_inj.mp f3).symm] at hcs
  have p1 := (pad2U_shape v1 l1).1
  have p2 := (pad2U_shape v2 l2).1
  have p3 := (pad2U_shape v3 l3).1
  have hlen6 : (pad2U v1 ++ pad2U v2 ++ pad2U v3).length = 6 := by
    simp [List.length_append, p1, p2, p3]
  have hupper : (pad2U v1 ++ pad2U v2 ++ pad2U v3).all isUpperHexChar = true := by
    simp [List.all_append, (pad2U_shape v1 l1).2, (pad2U_shape v2 l2).2,
      (pad2U_shape v3 l3).2]
  have hhex := all_upper_all_hex _ hupper
  have htab24 := all_upper_no_tab _ hupper
  obtain ⟨c, lt, rfl⟩ := List.exists_cons_of_ne_nil hlab.1
  have hc : isSpace c = false := by simpa using hlab.2.1
  have hlabtab : '\t' ∉ c :: lt := hlab.2.2.1
  have hscan : findall6hex ((c :: lt) ++ '\t' :: (pad2U v1 ++ pad2U v2 ++ pad2U v3))
      = [pad2U v1 ++ pad2U v2 ++ pad2U v3] := by
    unfold findall6hex
    refine scan6Aux_concat _ hlen6 hhex (c :: lt) _ none ?_ ?_
    · simp only [List.length_append, List.length_cons, hlen6]
      omega
    · have hempty : scan6Aux ((c :: lt).length + 1) none (c :: lt) = [] := hlab.2.2.2
      exact scan6Aux_nil_forall _ _ _ (by omega) hempty
  obtain ⟨d, r, hrev24, hd⟩ := rev_head_upper (pad2U v1 ++ pad2U v2 ++ pad2U v3)
    (by intro he; rw [he] at hlen6; exact absurd hlen6 (by decide)) hupper
  obtain ⟨ra, hra⟩ := rev_head_cons '\t' _ d r hrev24
  obtain ⟨r2, hrevline⟩ := rev_head_chain (c :: lt)
    ('\t' :: (pad2U v1 ++ pad2U v2 ++ pad2U v3)) d ra hra
  have hstrip : pyStrip ((c :: lt) ++ '\t' :: (pad2U v1 ++ pad2U v2 ++ pad2U v3))
      = (c :: lt) ++ '\t' :: (pad2U v1 ++ pad2U v2 ++ pad2U v3) :=
    pyStrip_no_strip c (lt ++ '\t' :: (pad2U v1 ++ pad2U v2 ++ pad2U v3)) d r2
      hrevline hc hd
  have hpm := processMatch_eq ((c :: lt) ++ '\t' :: (pad2U v1 ++ pad2U v2 ++ pad2U v3))
    v1 v2 v3 l1 l2 l3
  rw [hstrip] at hpm
  have hplval : processLine ((c :: lt) ++ '\t' :: (pad2U v1 ++ pad2U v2 ++ pad2U v3))
      = some (((c :: lt) ++ '\t' :: (pad2U v1 ++ pad2U v2 ++ pad2U v3))
          ++ '\t' :: anhexOf v1 v2 v3 ++ '\t' :: codeStrOf3 v1 v2 v3 ++ ['\n']) := by
    simp only [processLine, hscan]
    rw [List.foldlM_cons, hpm]
    simp
  have hbridge : (((c :: lt) ++ '\t' :: (pad2U v1 ++ pad2U v2 ++ pad2U v3))
          ++ '\t' :: anhexOf v1 v2 v3 ++ '\t' :: codeStrOf3 v1 v2 v3 ++ ['\n'])
      = (c :: lt) ++ ('\t' :: ((pad2U v1 ++ pad2U v2 ++ pad2U v3)
          ++ ('\t' :: (anhexOf v1 v2 v3
            ++ ('\t' :: (codeStrOf3 v1 v2 v3 ++ ['\n'])))))) := by
    simp [List.append_assoc]
  rw [hbridge] at hplval
  have hfour := entryOfLine_four (c :: lt) (pad2U v1 ++ pad2U v2 ++ pad2U v3)
    (anhexOf v1 v2 v3) (codeStrOf3 v1 v2 v3)
    (by simp) (by simpa using hc)
    (codeStrOf3_rev_head v1 v2 v3 l1 l2 l3)
    hlabtab htab24
    (all_upper_no_tab _ (anhexOf_upper v1 v2 v3 l1 l2 l3))
    (codeStrOf3_no_tab v1 v2 v3 l1 l2 l3)
  exact ⟨pad2U v1 ++ pad2U v2 ++ pad2U v3, _, codeStrOf3 v1 v2 v3,
    hp24, hplval, hcs, hfour⟩

/-! ## C2 -/

/-- C2 is false as stated: counterexample.  On the input text
`",ABCDEF=01 02 03"` the only extracted triple is `("01","02","03")`,
whose transformed and packed code string is `"0x8040 0xC03F"`; but the
extracted label `"ABCDEF"` is itself re-matched as a 24-bit value by the
line re-scan of `main`, and the single output entry carries the code
string `"0xD5B3 0xF708"` derived from the label, not from the triple. -/
theorem C2_counterexample :
    extract_text_between_comma_and_equal (",ABCDEF=01 02 03".data) = [("ABCDEF".data)]
    ∧ extract_hex_groups (",ABCDEF=01 02 03".data)
        = [(("01".data), ("02".data), ("03".data))]
    ∧ codeStrOfGroup (("01".data), ("02".data), ("03".data))
        = some ("0x8040 0xC03F".data)
    ∧ mainEntries (",ABCDEF=01 02 03".data)
        = some [(("ABCDEF".data), ("0xD5B3 0xF708".data))]
    ∧ ("0xD5B3 0xF708".data : Str) ≠ ("0x8040 0xC03F".data) :=
  ⟨by decide, by decide, by decide, by decide, by decide⟩

/-- C2 (amended): provided every label paired with a triple is transparent
to the downstream re-scan (nonempty, not starting with whitespace, free of
tabs and of word-bounded 6-hex-digit tokens), the pipeline emits one entry
per extracted triple, in extraction order, and the i-th entry's code
string is exactly the Byte Transform + Code Packer result of the i-th
extracted triple, independent of the label. -/
theorem C2_entry_codes (text : Str)
    (hlab : ∀ i < (extract_hex_groups text).length,
        goodLabel (labelAt (extract_text_between_comma_and_equal text) i)) :
    ∃ entries, mainEntries text = some entries
      ∧ entries.length = (extract_hex_groups text).length
      ∧ ∀ i g, (extract_hex_groups text).get? i = some g →
          ∃ e cs, entries.get? i = some e ∧ codeStrOfGroup g = some cs ∧ e.2 = cs := by
  have hgood : ∀ g ∈ extract_hex_groups text, goodGroup g := fun g hg =>
    findTriples_good text g (List.mem_of_mem_filter hg)
  obtain ⟨lines, hol, hollen, holidx⟩ :=
    outputLines_sound (extract_text_between_comma_and_equal text)
      (extract_hex_groups text) hgood
  have key : ∀ i g, (extract_hex_groups text).get? i = some g →
      ∃ line pl cs, lines.get? i = some line
        ∧ processLine line = some pl
        ∧ codeStrOfGroup g = some cs
        ∧ entryOfLine pl
            = some (labelAt (extract_text_between_comma_and_equal text) i, cs) := by
    intro i g hgi
    have hi : i < (extract_hex_groups text).length := by
      obtain ⟨hlt, _⟩ := List.get?_eq_some.mp hgi
      exact hlt
    obtain ⟨h24, hp24, hli⟩ := holidx i g hgi
    obtain ⟨h24', pl, cs, hp24', hpl, hcs, hent⟩ :=
      processLine_entry (labelAt (extract_text_between_comma_and_equal text) i) g
        (hlab i hi) (hgood g (List.get?_mem hgi))
    have he : h24' = h24 := by
      rw [hp24] at hp24'
      exact (Option.some_inj.mp hp24').symm
    rw [he] at hpl
    exact ⟨_, pl, cs, hli, hpl, hcs, hent⟩
  have hplsome : ∀ x ∈ lines, (processLine x).isSome = true := by
    intro x hx
    obtain ⟨i, hxi⟩ := List.get?_of_mem hx
    have hi : i < lines.length := by
      obtain ⟨hlt, _⟩ := List.get?_eq_some.mp hxi
      exact hlt
    have higr : i < (extract_hex_groups text).length := by rwa [hollen] at hi
    obtain ⟨line, pl, cs, hline_i, hpl, _, _⟩ :=
      key i _ (List.get?_eq_get higr)
    have hxl : x = line := by
      rw [hxi] at hline_i
      exact Option.some_inj.mp hline_i
    rw [hxl, hpl]
    rfl
  obtain ⟨plines, hmapm⟩ := mapM_opt_isSome _ _ hplsome
  obtain ⟨hplen, hpidx⟩ := mapM_opt_sound _ _ _ hmapm
  have hentsome : ∀ y ∈ plines, (entryOfLine y).isSome = true := by
    intro y hy
    obtain ⟨i, hyi⟩ := List.get?_of_mem hy
    have hi : i < plines.length := by
      obtain ⟨hlt, _⟩ := List.get?_eq_some.mp hyi
      exact hlt
    rw [hplen] at hi
    have higr : i < (extract_hex_groups text).length := by rwa [hollen] at hi
    obtain ⟨line, pl, cs, hline_i, hpl, hcs, hent⟩ :=
      key i _ (List.get?_eq_get higr)
    obtain ⟨b, hb1, hb2⟩ := hpidx i line hline_i
    have hbpl : b = pl := by
      rw [hpl] at hb1
      exact (Option.some_inj.mp hb1).symm
    have hyb : y = b := by
      rw [hyi] at hb2
      exact Option.some_inj.mp hb2
    rw [hyb, hbpl, hent]
    rfl
  obtain ⟨hflen, hfidx⟩ := filterMap_opt_sound _ _ hentsome
  refine ⟨plines.filterMap entryOfLine, ?_, ?_, ?_⟩
  · simp [mainEntries, mainProcessedLines, hol, hmapm]
    exact ⟨plines, hmapm, rfl⟩
  · rw [hflen, hplen, hollen]
  · intro i g hgi
    obtain ⟨line, pl, cs, hline_i, hpl, hcs, hent⟩ := key i g hgi
    obtain ⟨b, hb1, hb2⟩ := hpidx i line hline_i
    have hbpl : b = pl := by
      rw [hpl] at hb1
      exact (Option.some_inj.mp hb1).symm
    obtain ⟨e, he1, he2⟩ := hfidx i b hb2
    have hee : e = (labelAt (extract_text_between_comma_and_equal text) i, cs) := by
      rw [hbpl, hent] at he1
      exact (Option.some_inj.mp he1).symm
    exact ⟨e, cs, he2, hcs, by rw [hee]⟩

/-- Witness for the amended C2 on a well-behaved input. -/
theorem C2_entry_codes_witness :
    ∃ entries, mainEntries (",Power=01 02 03".data) = some entries
      ∧ entries.length = (extract_hex_groups (",Power=01 02 03".data)).length
      ∧ ∀ i g, (extract_hex_groups (",Power=01 02 03".data)).get? i = some g →
          ∃ e cs, entries.get? i = some e ∧ codeStrOfGroup g = some cs ∧ e.2 = cs := by
  refine C2_entry_codes (",Power=01 02 03".data) ?_
  intro i hi
  have hi1 : i = 0 := by
    have : (extract_hex_groups (",Power=01 02 03".data)).length = 1 := by decide
    omega
  subst hi1
  decide

end PRC
